import Mathlib

/-!
Verification of the hybrid cardinality estimator
(`src/CEEngine.cpp` together with `third_party/xxhash/xxhash.h`).

The C++ code is shallowly embedded: machine 64-bit unsigned arithmetic is
`Nat` with explicit reduction `% 2 ^ 64` where overflow can occur,
`std::unordered_map<uint64_t, size_t>` is an association list (only its
size and key set are ever observable), the register vector is a function
`ℕ → ℕ` used on indices below `2 ^ registerBits`, and `double` arithmetic
in `HyperLogLog::estimate` is idealised as real arithmetic.
-/

namespace CardEst

/-- `XXHash64` from `third_party/xxhash/xxhash.h`, specialised to the only
call pattern in the repository: an 8-byte input that is the little-endian
representation of a `uint64_t` (so the single main-loop iteration reads
back exactly `value`), after which `length` is `0` and the tail loop does
not run. All multiplications and the seed addition are reduced `% 2 ^ 64`;
xor and right shifts cannot overflow. -/
def XXHash64of8 (value seed : ℕ) : ℕ :=
  let P : ℕ := 0x9DDFEA08EB382D69
  let hash0 : ℕ := (seed + 0x9E3779B97F4A7C15) % 2 ^ 64
  let k1 : ℕ := (value * P) % 2 ^ 64
  let k2 : ℕ := k1 ^^^ (k1 >>> 47)
  let k3 : ℕ := (k2 * P) % 2 ^ 64
  let h1 : ℕ := hash0 ^^^ k3
  let h2 : ℕ := (h1 * P) % 2 ^ 64
  let h3 : ℕ := h2 ^^^ (h2 >>> 47)
  let h4 : ℕ := (h3 * P) % 2 ^ 64
  h4 ^^^ (h4 >>> 47)

/-- `HyperLogLog::hashTuple`: two `XXHash64` passes with the two fixed
seeds, combined as `hash1 ^ (hash2 >> 1)`. -/
def hashTuple (value : ℕ) : ℕ :=
  XXHash64of8 value 0x123456789 ^^^ (XXHash64of8 value 0x987654321 >>> 1)

/-- `__builtin_ctzll` restricted to 64-bit values, written with explicit
fuel 64 (the bit width); for the argument `hash | (1 << (64 - p))` used in
`HyperLogLog::add` the value is nonzero, so the C builtin is defined. -/
def ctzAux : ℕ → ℕ → ℕ
  | 0, _ => 0
  | fuel + 1, n => if n % 2 = 1 then 0 else 1 + ctzAux fuel (n / 2)

/-- Count of trailing zero bits of a (nonzero) 64-bit value. -/
def ctz64 (n : ℕ) : ℕ := ctzAux 64 n

/-- The register index in `HyperLogLog::add`: `hash >> (64 - registerBits)`. -/
def hllIdx (p hash : ℕ) : ℕ := hash >>> (64 - p)

/-- The rank in `HyperLogLog::add`:
`min(64 - registerBits, 1 + ctzll(hash | (1ULL << (64 - registerBits))))`. -/
def hllRank (p hash : ℕ) : ℕ :=
  min (64 - p) (1 + ctz64 (hash ||| (1 <<< (64 - p))))

/-- The register write in `HyperLogLog::add`:
`registers[idx] = max(registers[idx], rank)`, all other cells unchanged. -/
def hllObserve (p : ℕ) (r : ℕ → ℕ) (hash : ℕ) : ℕ → ℕ :=
  fun j => if j = hllIdx p hash then max (r j) (hllRank p hash) else r j

/-- `maxTrackedValues` member constant of `HyperLogLog`. -/
def maxTrackedValues : ℕ := 10000

/-- `valueFrequency[value]++` on `std::unordered_map<uint64_t, size_t>`:
if the key is present its count is incremented, otherwise a fresh entry
with count 1 (value-initialised 0, then `++`) is added. -/
def bump : List (ℕ × ℕ) → ℕ → List (ℕ × ℕ)
  | [], v => [(v, 1)]
  | (k, c) :: rest, v =>
      if k = v then (k, c + 1) :: rest else (k, c) :: bump rest v

/-- The keys of the frequency map (its distinct tracked values). -/
def freqKeys (f : List (ℕ × ℕ)) : List ℕ := f.map Prod.fst

/-- State of class `HyperLogLog`: `numRegisters` is derived (`1 << bits`),
the register vector is a function consulted on indices `< 2 ^ registerBits`. -/
structure HyperLogLog where
  registerBits : ℕ
  registers : ℕ → ℕ
  valueFrequency : List (ℕ × ℕ)
  isExactCount : Bool

/-- `HyperLogLog::HyperLogLog(int bits = 14)`: all registers zero, empty
frequency map, exact-count mode. -/
def HyperLogLog.new (bits : ℕ) : HyperLogLog :=
  { registerBits := bits
    registers := fun _ => 0
    valueFrequency := []
    isExactCount := true }

/-- `HyperLogLog::add`. While `isExactCount` holds, the frequency map is
bumped; if its size then exceeds `maxTrackedValues` the mode flag is
cleared, the map is cleared, and control falls through to the register
update; otherwise the early `return` skips the register update. Outside
exact mode only the register update runs. -/
def HyperLogLog.add (s : HyperLogLog) (value : ℕ) : HyperLogLog :=
  if s.isExactCount then
    let f := bump s.valueFrequency value
    if maxTrackedValues < f.length then
      { s with
          isExactCount := false
          valueFrequency := []
          registers := hllObserve s.registerBits s.registers (hashTuple value) }
    else
      { s with valueFrequency := f }
  else
    { s with
        registers := hllObserve s.registerBits s.registers (hashTuple value) }

/-- A sequence of `add` calls, first element first. -/
def HyperLogLog.addList (s : HyperLogLog) (l : List ℕ) : HyperLogLog :=
  l.foldl HyperLogLog.add s

/-- `HyperLogLog::reset`: zero the registers, clear the map, return to
exact-count mode. -/
def HyperLogLog.reset (s : HyperLogLog) : HyperLogLog :=
  { s with
      registers := fun _ => 0
      valueFrequency := []
      isExactCount := true }

/-- `numRegisters` as a real (`1 << p` cast to `double`). -/
noncomputable def hllNumReg (p : ℕ) : ℝ := ((2 ^ p : ℕ) : ℝ)

/-- The `sum` accumulator of `HyperLogLog::estimate`:
`Σ pow(2.0, -registers[i])`. -/
noncomputable def hllSum (p : ℕ) (r : ℕ → ℕ) : ℝ :=
  ∑ i ∈ Finset.range (2 ^ p), (2 : ℝ) ^ (-(r i : ℤ))

/-- The `harmonicMean` accumulator of `HyperLogLog::estimate`:
`Σ 1.0 / pow(2.0, -registers[i])`. -/
noncomputable def hllHarmonicMean (p : ℕ) (r : ℕ → ℕ) : ℝ :=
  ∑ i ∈ Finset.range (2 ^ p), 1 / (2 : ℝ) ^ (-(r i : ℤ))

/-- The `zeros` counter of `HyperLogLog::estimate`: how many registers are
still zero. -/
def hllZeros (p : ℕ) (r : ℕ → ℕ) : ℕ :=
  ((Finset.range (2 ^ p)).filter fun i => r i = 0).card

/-- The bias-correction constant `alpha` (`switch` on `registerBits`). -/
noncomputable def hllAlpha (p : ℕ) : ℝ :=
  if p = 4 then 0.673
  else if p = 5 then 0.697
  else if p = 6 then 0.709
  else 0.7213 / (1 + 1.079 / hllNumReg p)

/-- The raw estimate `alpha * numRegisters * numRegisters / sum`. -/
noncomputable def hllRawEstimate (p : ℕ) (r : ℕ → ℕ) : ℝ :=
  hllAlpha p * hllNumReg p * hllNumReg p / hllSum p r

/-- The approximate branch of `HyperLogLog::estimate`: raw estimate, then
small-range correction (magnitude guard, then zero-register guard), `else`
large-range correction, and the final `max(1.0, estimate)` clamp. -/
noncomputable def hllApprox (p : ℕ) (r : ℕ → ℕ) : ℝ :=
  max 1
    (if hllRawEstimate p r ≤ 5 * hllNumReg p then
      if 0 < hllZeros p r then
        hllNumReg p * Real.log (hllNumReg p / (hllZeros p r : ℝ))
      else hllRawEstimate p r
    else if ((2 ^ 32 : ℕ) : ℝ) / 30 < hllRawEstimate p r then
      min (hllRawEstimate p r)
        (hllNumReg p * hllNumReg p / (hllHarmonicMean p r / hllNumReg p))
    else hllRawEstimate p r)

/-- `HyperLogLog::estimate`: the exact map size while `isExactCount`,
otherwise the corrected sketch estimate. -/
noncomputable def HyperLogLog.estimate (s : HyperLogLog) : ℝ :=
  if s.isExactCount then (s.valueFrequency.length : ℝ)
  else hllApprox s.registerBits s.registers

/-- Rendering of the spec sentence for the correction chain, to be compared
with `hllApprox`: it reads the small-range correction as a single conjoined
guard (replace `E` only when the magnitude check and the zero-register
check BOTH hold), with the large-range check in the `otherwise` branch of
that conjunction, then the final clamp. -/
noncomputable def hllApproxSpec (p : ℕ) (r : ℕ → ℕ) : ℝ :=
  max 1
    (if hllRawEstimate p r ≤ 5 * hllNumReg p ∧ 0 < hllZeros p r then
      hllNumReg p * Real.log (hllNumReg p / (hllZeros p r : ℝ))
    else if ((2 ^ 32 : ℕ) : ℝ) / 30 < hllRawEstimate p r then
      min (hllRawEstimate p r)
        (hllNumReg p * hllNumReg p / (hllHarmonicMean p r / hllNumReg p))
    else hllRawEstimate p r)

/-- `static_cast<uint64_t>` of a C++ `int` value: two's-complement
reduction modulo `2 ^ 64` (sign extension for negative values). -/
def uint64OfInt (x : ℤ) : ℕ := (x % (2 : ℤ) ^ 64).toNat

/-- The combined key of `CEEngine::Impl::insertTuple`:
`(uint64(field0) << 32) | uint64(field1)` in 64-bit arithmetic. -/
def combine (a b : ℤ) : ℕ :=
  ((uint64OfInt a <<< 32) % 2 ^ 64) ||| uint64OfInt b

/-- State of `CEEngine::Impl`: the sketch plus the `tuples` vector into
which `insertTuple` pushes every incoming tuple. -/
structure CEEngine where
  hll : HyperLogLog
  tuples : List (ℤ × ℤ)

/-- `CEEngine::Impl::Impl()`: a precision-14 sketch and an empty vector. -/
def CEEngine.new : CEEngine :=
  { hll := HyperLogLog.new 14, tuples := [] }

/-- `CEEngine::Impl::insertTuple`: push the tuple, combine the two fields
into one 64-bit key, feed it to the sketch. -/
def CEEngine.insertTuple (e : CEEngine) (t : ℤ × ℤ) : CEEngine :=
  { hll := e.hll.add (combine t.1 t.2), tuples := e.tuples ++ [t] }

/-- `CEEngine::Impl::estimate`. -/
noncomputable def CEEngine.estimate (e : CEEngine) : ℝ := e.hll.estimate

/-- `CEEngine::Impl::prepare`: clear the tuple vector and reset the sketch. -/
def CEEngine.prepare (e : CEEngine) : CEEngine :=
  { hll := e.hll.reset, tuples := [] }

/-- A sequence of `insertTuple` calls, first element first. -/
def CEEngine.insertList (e : CEEngine) (ts : List (ℤ × ℤ)) : CEEngine :=
  ts.foldl CEEngine.insertTuple e

/-! ### General-purpose helper lemmas -/

lemma length_eq_of_nodup_mem {l₁ l₂ : List ℕ} (h₁ : l₁.Nodup) (h₂ : l₂.Nodup)
    (h : ∀ x, x ∈ l₁ ↔ x ∈ l₂) : l₁.length = l₂.length :=
  ((List.perm_ext_iff_of_nodup h₁ h₂).mpr h).length_eq

lemma dedup_length_append (l : List ℕ) (v : ℕ) :
    (l ++ [v]).dedup.length =
      if v ∈ l then l.dedup.length else l.dedup.length + 1 := by
  by_cases hv : v ∈ l
  · rw [if_pos hv]
    apply length_eq_of_nodup_mem (List.nodup_dedup _) (List.nodup_dedup _)
    intro x
    simp only [List.mem_dedup, List.mem_append, List.mem_singleton]
    constructor
    · rintro (h | rfl)
      · exact h
      · exact hv
    · exact Or.inl
  · rw [if_neg hv]
    have hstep : (l ++ [v]).dedup.length = (v :: l.dedup).length := by
      apply length_eq_of_nodup_mem (List.nodup_dedup _)
      · exact List.Nodup.cons (by simp [List.mem_dedup, hv]) (List.nodup_dedup _)
      · intro x
        simp only [List.mem_dedup, List.mem_append, List.mem_singleton,
          List.mem_cons]
        tauto
    simp [hstep]

lemma dedup_length_le_append (l : List ℕ) (v : ℕ) :
    l.dedup.length ≤ (l ++ [v]).dedup.length := by
  rw [dedup_length_append]
  split_ifs <;> omega

/-! ### Lemmas about the frequency-map update -/

lemma freqKeys_bump (f : List (ℕ × ℕ)) (v : ℕ) :
    freqKeys (bump f v) =
      if v ∈ freqKeys f then freqKeys f else freqKeys f ++ [v] := by
  induction f with
  | nil => simp [bump, freqKeys]
  | cons kc rest ih =>
    obtain ⟨k, c⟩ := kc
    by_cases hk : k = v
    · subst hk
      simp [bump, freqKeys]
    · have hvk : ¬ v = k := fun h => hk h.symm
      simp only [bump, if_neg hk, freqKeys, List.map_cons] at ih ⊢
      rw [ih]
      by_cases hv : v ∈ List.map Prod.fst rest
      · simp [hv, hvk]
      · simp [hv, hvk]

lemma bump_length (f : List (ℕ × ℕ)) (v : ℕ) :
    (bump f v).length = if v ∈ freqKeys f then f.length else f.length + 1 := by
  have h1 : (bump f v).length = (freqKeys (bump f v)).length := by
    simp [freqKeys]
  rw [h1, freqKeys_bump]
  split_ifs <;> simp [freqKeys]

/-! ### Case shapes of `HyperLogLog::add` -/

lemma add_of_exact_stay (s : HyperLogLog) (v : ℕ) (hs : s.isExactCount = true)
    (hlen : ¬ maxTrackedValues < (bump s.valueFrequency v).length) :
    s.add v = { s with valueFrequency := bump s.valueFrequency v } := by
  simp [HyperLogLog.add, hs, hlen]

lemma add_of_exact_switch (s : HyperLogLog) (v : ℕ) (hs : s.isExactCount = true)
    (hlen : maxTrackedValues < (bump s.valueFrequency v).length) :
    s.add v = { s with
        isExactCount := false
        valueFrequency := []
        registers := hllObserve s.registerBits s.registers (hashTuple v) } := by
  simp [HyperLogLog.add, hs, hlen]

lemma add_of_not_exact (s : HyperLogLog) (v : ℕ) (hs : s.isExactCount = false) :
    s.add v = { s with
        registers := hllObserve s.registerBits s.registers (hashTuple v) } := by
  simp [HyperLogLog.add, hs]

lemma addList_cons (s : HyperLogLog) (v : ℕ) (rest : List ℕ) :
    s.addList (v :: rest) = (s.add v).addList rest := rfl

lemma addList_append_singleton (s : HyperLogLog) (l : List ℕ) (v : ℕ) :
    s.addList (l ++ [v]) = (s.addList l).add v := by
  simp [HyperLogLog.addList, List.foldl_append]

lemma add_registerBits (s : HyperLogLog) (v : ℕ) :
    (s.add v).registerBits = s.registerBits := by
  cases hs : s.isExactCount
  · rw [add_of_not_exact s v hs]
  · by_cases hlen : maxTrackedValues < (bump s.valueFrequency v).length
    · rw [add_of_exact_switch s v hs hlen]
    · rw [add_of_exact_stay s v hs hlen]

lemma addList_registerBits (s : HyperLogLog) (l : List ℕ) :
    (s.addList l).registerBits = s.registerBits := by
  induction l generalizing s with
  | nil => rfl
  | cons v rest ih =>
    rw [addList_cons, ih, add_registerBits]

lemma addList_not_exact (s : HyperLogLog) (l : List ℕ) :
    s.isExactCount = false →
      (s.addList l).isExactCount = false
        ∧ (s.addList l).valueFrequency = s.valueFrequency := by
  induction l generalizing s with
  | nil => exact fun hs => ⟨hs, rfl⟩
  | cons v rest ih =>
    intro hs
    have hadd := add_of_not_exact s v hs
    rw [addList_cons]
    have h2 : (s.add v).isExactCount = false := by rw [hadd]; exact hs
    obtain ⟨ha, hb⟩ := ih (s.add v) h2
    refine ⟨ha, ?_⟩
    rw [hb, hadd]

lemma add_registers_mono (s : HyperLogLog) (v : ℕ) (i : ℕ) :
    s.registers i ≤ (s.add v).registers i := by
  have hobs : ∀ hsh : ℕ, s.registers i ≤ hllObserve s.registerBits s.registers hsh i := by
    intro hsh
    unfold hllObserve
    split_ifs
    · exact le_max_left _ _
    · exact le_rfl
  cases hs : s.isExactCount
  · rw [add_of_not_exact s v hs]
    exact hobs (hashTuple v)
  · by_cases hlen : maxTrackedValues < (bump s.valueFrequency v).length
    · rw [add_of_exact_switch s v hs hlen]
      exact hobs (hashTuple v)
    · rw [add_of_exact_stay s v hs hlen]

lemma addList_registers_mono (s : HyperLogLog) (l : List ℕ) (i : ℕ) :
    s.registers i ≤ (s.addList l).registers i := by
  induction l generalizing s with
  | nil => exact le_rfl
  | cons v rest ih =>
    rw [addList_cons]
    exact le_trans (add_registers_mono s v i) (ih (s.add v))

/-- Central invariant of a run from the fresh precision-14 sketch: the
tracker is in exact mode precisely while the number of distinct inserted
keys is at most `maxTrackedValues`; in exact mode the frequency map holds
exactly the distinct inserted keys, and out of exact mode it is empty. -/
lemma addList_inv (l : List ℕ) :
    (((HyperLogLog.new 14).addList l).isExactCount = true
        ↔ l.dedup.length ≤ maxTrackedValues)
    ∧ (((HyperLogLog.new 14).addList l).isExactCount = true →
        (freqKeys ((HyperLogLog.new 14).addList l).valueFrequency).Nodup
        ∧ (∀ k, k ∈ freqKeys ((HyperLogLog.new 14).addList l).valueFrequency ↔ k ∈ l)
        ∧ ((HyperLogLog.new 14).addList l).valueFrequency.length = l.dedup.length)
    ∧ (((HyperLogLog.new 14).addList l).isExactCount = false →
        ((HyperLogLog.new 14).addList l).valueFrequency = []) := by
  induction l using List.reverseRecOn with
  | nil =>
    refine ⟨?_, ?_, ?_⟩
    · simp [HyperLogLog.addList, HyperLogLog.new, maxTrackedValues]
    · intro _
      refine ⟨?_, ?_, ?_⟩ <;> simp [HyperLogLog.addList, HyperLogLog.new, freqKeys]
    · intro h
      simp [HyperLogLog.addList, HyperLogLog.new] at h
  | append_singleton l v ih =>
    obtain ⟨ihiff, ihexact, ihclear⟩ := ih
    set t := (HyperLogLog.new 14).addList l with ht
    rw [addList_append_singleton]
    cases hte : t.isExactCount
    · have hclear := ihclear hte
      have hgt : maxTrackedValues < l.dedup.length := by
        by_contra hle
        have := ihiff.mpr (Nat.le_of_not_lt hle)
        rw [hte] at this
        exact Bool.false_ne_true this
      have hadd := add_of_not_exact t v hte
      have hne : (t.add v).isExactCount = false := by rw [hadd]; exact hte
      refine ⟨?_, ?_, ?_⟩
      · rw [hne]
        constructor
        · intro h; exact absurd h Bool.false_ne_true
        · intro h
          exact absurd h (Nat.not_le_of_lt
            (Nat.lt_of_lt_of_le hgt (dedup_length_le_append l v)))
      · intro h; rw [hne] at h; exact absurd h Bool.false_ne_true
      · intro _
        rw [hadd]
        exact hclear
    · obtain ⟨hnd, hmem, hlen⟩ := ihexact hte
      have hcnt : (bump t.valueFrequency v).length =
          (l ++ [v]).dedup.length := by
        rw [bump_length, dedup_length_append, hlen]
        by_cases hv : v ∈ l
        · rw [if_pos ((hmem v).mpr hv), if_pos hv]
        · rw [if_neg (fun hc => hv ((hmem v).mp hc)), if_neg hv]
      by_cases hsw : maxTrackedValues < (bump t.valueFrequency v).length
      · have hadd := add_of_exact_switch t v hte hsw
        have hne : (t.add v).isExactCount = false := by rw [hadd]
        refine ⟨?_, ?_, ?_⟩
        · rw [hne]
          constructor
          · intro h; exact absurd h Bool.false_ne_true
          · intro h
            rw [hcnt] at hsw
            exact absurd h (Nat.not_le_of_lt hsw)
        · intro h; rw [hne] at h; exact absurd h Bool.false_ne_true
        · intro _; rw [hadd]
      · have hadd := add_of_exact_stay t v hte hsw
        have hex : (t.add v).isExactCount = true := by rw [hadd]; exact hte
        have hfreq : (t.add v).valueFrequency = bump t.valueFrequency v := by
          rw [hadd]
        refine ⟨?_, ?_, ?_⟩
        · rw [hex]
          constructor
          · intro _
            rw [hcnt] at hsw
            exact Nat.le_of_not_lt hsw
          · intro _; rfl
        · intro _
          rw [hfreq, freqKeys_bump]
          refine ⟨?_, ?_, ?_⟩
          · split_ifs with hv
            · exact hnd
            · simp only [List.nodup_append, List.nodup_singleton]
              refine ⟨hnd, by simp, ?_⟩
              simp only [List.disjoint_singleton]
              exact hv
          · intro k
            split_ifs with hv
            · rw [hmem k]
              simp only [List.mem_append, List.mem_singleton]
              constructor
              · exact Or.inl
              · rintro (h | rfl)
                · exact h
                · exact (hmem k).mp hv
            · simp only [List.mem_append, List.mem_singleton, hmem k]
          · rw [← hfreq] at hcnt ⊢
            exact hcnt
        · intro h; rw [hex] at h; simp at h

/-! ### Helper lemmas on the key combination and the rank -/

lemma uint64OfInt_of_nonneg {a : ℤ} (h0 : 0 ≤ a) (h1 : a < 2 ^ 63) :
    uint64OfInt a = a.toNat := by
  unfold uint64OfInt
  rw [Int.emod_eq_of_lt h0 (lt_trans h1 (by norm_num))]

lemma combine_eq_of_nonneg {a b : ℤ} (ha0 : 0 ≤ a) (ha1 : a < 2 ^ 31)
    (hb0 : 0 ≤ b) (hb1 : b < 2 ^ 31) :
    combine a b = a.toNat * 2 ^ 32 + b.toNat := by
  unfold combine
  rw [uint64OfInt_of_nonneg ha0 (lt_trans ha1 (by norm_num)),
      uint64OfInt_of_nonneg hb0 (lt_trans hb1 (by norm_num))]
  have haN : a.toNat < 2 ^ 31 := by omega
  have hbN : b.toNat < 2 ^ 32 := by omega
  rw [Nat.shiftLeft_eq]
  rw [Nat.mod_eq_of_lt (by
    calc a.toNat * 2 ^ 32 < 2 ^ 31 * 2 ^ 32 :=
          (Nat.mul_lt_mul_right (by norm_num)).mpr haN
    _ < 2 ^ 64 := by norm_num)]
  rw [mul_comm a.toNat (2 ^ 32)]
  exact (Nat.mul_add_lt_is_or hbN a.toNat).symm

lemma hllRank_pos (p h : ℕ) (hp : p < 64) : 1 ≤ hllRank p h :=
  le_min (by omega) (Nat.le_add_right 1 _)

/-- The implemented correction chain coincides, at the engine precision
`p = 14`, with the spec reading whose small-range guard is the conjunction
of the magnitude check and the zero-register check: the only branch where
the two readings could differ requires `E ≤ 5 * 16384` and
`E > 2^32 / 30` at once, which is impossible. -/
lemma approx_eq_spec14 (r : ℕ → ℕ) : hllApprox 14 r = hllApproxSpec 14 r := by
  unfold hllApprox hllApproxSpec
  congr 1
  by_cases h1 : hllRawEstimate 14 r ≤ 5 * hllNumReg 14
  · by_cases h2 : 0 < hllZeros 14 r
    · rw [if_pos h1, if_pos h2, if_pos ⟨h1, h2⟩]
    · rw [if_pos h1, if_neg h2, if_neg (fun hc => h2 hc.2), if_neg ?hlarge]
      case hlarge =>
        intro hgt
        have hm : hllNumReg 14 = 16384 := by unfold hllNumReg; norm_num
        rw [hm] at h1
        have hc : ((2 ^ 32 : ℕ) : ℝ) = 4294967296 := by norm_num
        rw [hc] at hgt
        linarith
  · rw [if_neg h1,
      if_neg (show ¬(hllRawEstimate 14 r ≤ 5 * hllNumReg 14
          ∧ 0 < hllZeros 14 r) from fun hc => h1 hc.1)]

lemma insertList_hll (e : CEEngine) (ts : List (ℤ × ℤ)) :
    (e.insertList ts).hll = e.hll.addList (ts.map fun t => combine t.1 t.2) := by
  induction ts generalizing e with
  | nil => rfl
  | cons t rest ih =>
    show ((e.insertTuple t).insertList rest).hll = _
    rw [ih]
    rfl

/-! ### Claim C1 -/

/-- Claim C1 (counterexample): inserting combined key `0` into a fresh
estimator leaves the tracker in exact mode and leaves the register array
untouched — it does NOT equal the observe-updated array the claim
demands, because `add` returns before the register update while
`isExactCount` holds. -/
theorem add_skips_sketch_in_exact_mode_cex :
    (HyperLogLog.add (HyperLogLog.new 14) 0).isExactCount = true
    ∧ (HyperLogLog.add (HyperLogLog.new 14) 0).registers
        ≠ hllObserve 14 (HyperLogLog.new 14).registers (hashTuple 0) := by
  refine ⟨rfl, ?_⟩
  intro h
  have h0 := congrFun h (hllIdx 14 (hashTuple 0))
  have hL : (HyperLogLog.add (HyperLogLog.new 14) 0).registers
      (hllIdx 14 (hashTuple 0)) = 0 := rfl
  rw [hL] at h0
  unfold hllObserve at h0
  rw [if_pos rfl] at h0
  have hrank := hllRank_pos 14 (hashTuple 0) (by norm_num)
  have hz : (HyperLogLog.new 14).registers (hllIdx 14 (hashTuple 0)) = 0 := rfl
  rw [hz] at h0
  omega

/-- Claim C1 (amended): an insertion updates the register array (observe
on the mixed hash of the combined key) exactly when the tracker is out of
exact mode after the insertion — i.e. on the switch-triggering insertion
and on every later one; insertions fully handled in exact mode leave the
registers unchanged, so at the moment of the mode switch the registers
reflect only the switch-triggering key. -/
theorem add_updates_registers_iff_not_exact (s : HyperLogLog) (v : ℕ) :
    (s.add v).registers =
      if (s.add v).isExactCount = true then s.registers
      else hllObserve s.registerBits s.registers (hashTuple v) := by
  cases hs : s.isExactCount
  · have hadd := add_of_not_exact s v hs
    have hne : (s.add v).isExactCount = false := by rw [hadd]; exact hs
    rw [if_neg (by simp [hne]), hadd]
  · by_cases hlen : maxTrackedValues < (bump s.valueFrequency v).length
    · have hadd := add_of_exact_switch s v hs hlen
      have hne : (s.add v).isExactCount = false := by rw [hadd]
      rw [if_neg (by simp [hne]), hadd]
    · have hadd := add_of_exact_stay s v hs hlen
      have hex : (s.add v).isExactCount = true := by rw [hadd]; exact hs
      rw [if_pos hex, hadd]

/-! ### Claim C2 -/

/-- Claim C2 (counterexample): the records `(0, -1)` and `(1, -1)` are
distinct, both fields are valid 32-bit `int` values, yet they combine to
the same 64-bit key: the sign extension of `field1 = -1` to 64 bits sets
all high 32 bits, erasing `field0`. -/
theorem combine_sign_extension_collision_cex :
    combine 0 (-1) = combine 1 (-1)
    ∧ ((0 : ℤ), (-1 : ℤ)) ≠ ((1 : ℤ), (-1 : ℤ)) :=
  ⟨by decide, by decide⟩

/-- Claim C2 (amended): the record-to-combined-key mapping is injective
on records whose fields are NONNEGATIVE 32-bit values; in particular for
distinct nonnegative `a` and `b`, the records `(a, b)` and `(b, a)` map
to distinct keys, so inserting `(3, 7)` then `(7, 3)` is tracked as two
distinct keys. For a negative second field, sign extension makes distinct
records collide. -/
theorem combine_injective_on_nonneg (a b a' b' : ℤ)
    (ha0 : 0 ≤ a) (ha1 : a < 2 ^ 31) (hb0 : 0 ≤ b) (hb1 : b < 2 ^ 31)
    (ha0' : 0 ≤ a') (ha1' : a' < 2 ^ 31) (hb0' : 0 ≤ b') (hb1' : b' < 2 ^ 31)
    (hne : (a, b) ≠ (a', b')) : combine a b ≠ combine a' b' := by
  intro he
  rw [combine_eq_of_nonneg ha0 ha1 hb0 hb1,
      combine_eq_of_nonneg ha0' ha1' hb0' hb1'] at he
  apply hne
  have hab : a = a' ∧ b = b' := by omega
  rw [hab.1, hab.2]

/-- Claim C2 witness: the theorem applied to the records `(3, 7)` and
`(7, 3)` of the claim. -/
theorem combine_injective_on_nonneg_witness :
    (0 : ℤ) ≤ 3 ∧ (3 : ℤ) < 2 ^ 31 ∧ (0 : ℤ) ≤ 7 ∧ (7 : ℤ) < 2 ^ 31
    ∧ ((3 : ℤ), (7 : ℤ)) ≠ ((7 : ℤ), (3 : ℤ))
    ∧ combine 3 7 ≠ combine 7 3 :=
  ⟨by decide, by decide, by decide, by decide, by decide,
    combine_injective_on_nonneg 3 7 7 3 (by decide) (by decide) (by decide)
      (by decide) (by decide) (by decide) (by decide) (by decide) (by decide)⟩

/-! ### Claim C3 -/

/-- Claim C3: for every insertion sequence whose distinct combined-key
count is at most `maxTrackedValues`, `estimate()` returns exactly the
number of distinct combined keys inserted (in particular, inserting the
same key any number of times yields an estimate of 1). -/
theorem estimate_exact_below_threshold (l : List ℕ)
    (h : l.dedup.length ≤ maxTrackedValues) :
    ((HyperLogLog.new 14).addList l).estimate = (l.dedup.length : ℝ) := by
  obtain ⟨hiff, hexact, _⟩ := addList_inv l
  have he := hiff.mpr h
  obtain ⟨_, _, hlen⟩ := hexact he
  rw [HyperLogLog.estimate, if_pos he, hlen]

/-- Claim C3 witness: inserting the same key three times gives estimate
equal to the distinct count 1. -/
theorem estimate_exact_below_threshold_witness :
    ([5, 5, 5] : List ℕ).dedup.length ≤ maxTrackedValues
    ∧ ((HyperLogLog.new 14).addList [5, 5, 5]).estimate
        = (([5, 5, 5] : List ℕ).dedup.length : ℝ)
    ∧ ([5, 5, 5] : List ℕ).dedup.length = 1 :=
  ⟨by decide, estimate_exact_below_threshold [5, 5, 5] (by decide), by decide⟩

/-! ### Claim C4 -/

/-- Claim C4 (counterexample): a freshly constructed estimator with zero
insertions is in exact mode with an empty frequency map, so `estimate()`
returns `0.0`, which is below the claimed floor of `1.0` (the
`max(1.0, ...)` clamp lives only in the approximate branch). -/
theorem estimate_fresh_below_one_cex : CEEngine.new.estimate < 1 := by
  rw [CEEngine.estimate, CEEngine.new, HyperLogLog.estimate]
  norm_num [HyperLogLog.new]

/-- Claim C4 (amended): `estimate()` returns at least `1.0` for every
state reached by at least one insertion; only the fresh (or freshly
reset) estimator with zero insertions returns a value below `1.0`,
namely `0.0`. -/
theorem estimate_ge_one_after_insert (t : ℤ × ℤ) (ts : List (ℤ × ℤ)) :
    1 ≤ (CEEngine.new.insertList (t :: ts)).estimate := by
  rw [CEEngine.estimate, insertList_hll]
  set l := (t :: ts).map (fun t => combine t.1 t.2) with hl
  have hlne : l ≠ [] := by simp [hl]
  have hbits : CEEngine.new.hll = HyperLogLog.new 14 := rfl
  rw [hbits]
  obtain ⟨hiff, hexact, _⟩ := addList_inv l
  cases hb : ((HyperLogLog.new 14).addList l).isExactCount
  · rw [HyperLogLog.estimate, if_neg (by rw [hb]; simp)]
    rw [addList_registerBits]
    exact le_max_left 1 _
  · obtain ⟨_, _, hlen⟩ := hexact hb
    rw [HyperLogLog.estimate, if_pos hb, hlen]
    have hpos : 0 < l.dedup.length := by
      rcases Nat.eq_zero_or_pos l.dedup.length with h0 | hp
      · exact absurd ((List.dedup_eq_nil l).mp (List.length_eq_zero.mp h0)) hlne
      · exact hp
    exact_mod_cast Nat.one_le_iff_ne_zero.mpr (Nat.pos_iff_ne_zero.mp hpos)

/-! ### Claim C5 -/

/-- Claim C5: inserting exactly `maxTrackedValues` distinct keys keeps the
tracker in exact mode; once the distinct count exceeds `maxTrackedValues`
the tracker leaves exact mode, clears the frequency map, and never returns
to exact mode under any further insertions — every subsequent `estimate()`
is the sketch estimate — while an explicit `reset()` restores exact mode. -/
theorem threshold_switch_irreversible (l : List ℕ) :
    (l.dedup.length = maxTrackedValues →
        ((HyperLogLog.new 14).addList l).isExactCount = true)
    ∧ (maxTrackedValues < l.dedup.length →
        ((HyperLogLog.new 14).addList l).isExactCount = false
        ∧ ((HyperLogLog.new 14).addList l).valueFrequency = []
        ∧ ∀ more : List ℕ,
            (((HyperLogLog.new 14).addList l).addList more).isExactCount = false
            ∧ (((HyperLogLog.new 14).addList l).addList more).estimate
                = hllApprox 14
                    (((HyperLogLog.new 14).addList l).addList more).registers)
    ∧ (∀ s : HyperLogLog, s.reset.isExactCount = true) := by
  obtain ⟨hiff, _, hclear⟩ := addList_inv l
  refine ⟨fun he => hiff.mpr (le_of_eq he), fun hgt => ?_, fun s => rfl⟩
  have hne : ((HyperLogLog.new 14).addList l).isExactCount = false := by
    cases hb : ((HyperLogLog.new 14).addList l).isExactCount
    · rfl
    · exact absurd (hiff.mp hb) (Nat.not_le_of_lt hgt)
  refine ⟨hne, hclear hne, fun more => ?_⟩
  obtain ⟨hstill, _⟩ := addList_not_exact _ more hne
  refine ⟨hstill, ?_⟩
  rw [HyperLogLog.estimate, if_neg (by rw [hstill]; simp)]
  rw [addList_registerBits, addList_registerBits]
  rfl

/-- Claim C5 witness: 10001 distinct keys exceed the threshold and force
the tracker out of exact mode. -/
theorem threshold_switch_irreversible_witness :
    maxTrackedValues < (List.range 10001).dedup.length
    ∧ ((HyperLogLog.new 14).addList (List.range 10001)).isExactCount = false := by
  have h : maxTrackedValues < (List.range 10001).dedup.length := by
    rw [(List.nodup_range 10001).dedup, List.length_range]
    norm_num [maxTrackedValues]
  exact ⟨h, ((threshold_switch_irreversible (List.range 10001)).2.1 h).1⟩

/-! ### Claim C6 -/

/-- Claim C6: in approximate mode, `estimate()` computes the register sum,
the bias constant alpha, the raw estimate `E = alpha * m^2 / sum`, then
checks the magnitude guard `E ≤ 5 * m` before the zero-register guard
(replacing `E` with linear counting `m * ln(m / zeroCount)` when both
hold), otherwise applies the large-range correction
`min(E, m^2 / (harmonicSum / m))` when `E > 2^32 / 30`, and finally
returns `max(1.0, E)` — as captured by the spec rendering
`hllApproxSpec`. -/
theorem estimate_correction_structure (s : HyperLogLog)
    (h1 : s.isExactCount = false) (h2 : s.registerBits = 14) :
    s.estimate = hllApproxSpec 14 s.registers := by
  rw [HyperLogLog.estimate, if_neg (by rw [h1]; simp), h2, approx_eq_spec14]

/-- Claim C6 witness: the theorem applied to a concrete approximate-mode
state (precision 14, all registers zero). -/
theorem estimate_correction_structure_witness :
    (⟨14, fun _ => 0, [], false⟩ : HyperLogLog).isExactCount = false
    ∧ (⟨14, fun _ => 0, [], false⟩ : HyperLogLog).registerBits = 14
    ∧ (⟨14, fun _ => 0, [], false⟩ : HyperLogLog).estimate
        = hllApproxSpec 14 (⟨14, fun _ => 0, [], false⟩ : HyperLogLog).registers :=
  ⟨rfl, rfl, estimate_correction_structure _ rfl rfl⟩

/-! ### Claim C7 -/

/-- Claim C7: registers never decrease under any sequence of insertions
(each sketch update writes `max(old, rank)` and nothing but `reset`
otherwise touches a register). -/
theorem registers_monotone (s : HyperLogLog) (l : List ℕ) (i : ℕ) :
    s.registers i ≤ (s.addList l).registers i :=
  addList_registers_mono s l i

/-! ### Claim C8 -/

/-- Claim C8: `prepare()` (reset) on a freshly constructed engine is a
no-op — it returns the very initial state — and `prepare()` is
idempotent: two resets in a row equal one. -/
theorem prepare_initial_and_idempotent :
    CEEngine.new.prepare = CEEngine.new
    ∧ ∀ e : CEEngine, e.prepare.prepare = e.prepare :=
  ⟨rfl, fun _ => rfl⟩

/-! ### Claim C9 -/

/-- Claim C9 (code evaluation): contrary to the stated design, the facade
retains every inserted record: each `insertTuple` appends the tuple to the
member vector `tuples`, which is never read by estimation. -/
theorem insertTuple_retains_every_tuple (e : CEEngine) (t : ℤ × ℤ) :
    (e.insertTuple t).tuples = e.tuples ++ [t] :=
  rfl

/-! ### Claim C10 -/

/-- Claim C10: for every 64-bit hash value at precision `p = 14`, the
register index `hash >> (64 - p)` is below `2^p` (so the register write is
in bounds) and the rank lies in `[1, 64 - p]` (so it fits in one byte). -/
theorem sketch_update_in_bounds (h : ℕ) (hh : h < 2 ^ 64) :
    hllIdx 14 h < 2 ^ 14 ∧ 1 ≤ hllRank 14 h ∧ hllRank 14 h ≤ 64 - 14 := by
  refine ⟨?_, ?_, ?_⟩
  · unfold hllIdx
    rw [Nat.shiftRight_eq_div_pow]
    rw [Nat.div_lt_iff_lt_mul (by norm_num)]
    calc h < 2 ^ 64 := hh
    _ = 2 ^ 14 * 2 ^ (64 - 14) := by norm_num
  · exact le_min (by norm_num) (Nat.le_add_right 1 _)
  · exact min_le_left _ _

/-- Claim C10 witness: the theorem applied to the hash value 0. -/
theorem sketch_update_in_bounds_witness :
    (0 : ℕ) < 2 ^ 64
    ∧ hllIdx 14 0 < 2 ^ 14 ∧ 1 ≤ hllRank 14 0 ∧ hllRank 14 0 ≤ 64 - 14 :=
  ⟨by norm_num, sketch_update_in_bounds 0 (by norm_num)⟩

end CardEst
